import Mathlib

/-!
Verification of the PTY MCP server core (almahdi/mcp-terminal) against its
natural-language specification.

The development shallowly embeds the three core components:
  * `RingBuffer` (src/services/RingBuffer.ts): a bounded line store; chunks
    are split on newline characters and appended, the head is evicted when
    the capacity is exceeded.
  * the session registry (src/services/PTYManager.ts): spawn id generation,
    write/read/search/kill over a JS `Map` of sessions, and the exit/kill
    status transitions.
  * the permission engine (src/services/PermissionService.ts): command and
    working-directory checks over the `PTY_PERMISSIONS` configuration.

JS strings are embedded as Lean `String` (with the JS string operations that
the source relies on re-implemented over `List Char`, since their JS
semantics differ from Lean's built-ins), JS numbers used as indices as `Int`,
and the JS `Map` as an association list with `Map.get`/`Map.set`/`Map.delete`
semantics.  A `RegExp` used only through `.test` is embedded as a predicate
on lines.  Asynchronous callbacks (the PTY exit callback) and the foreground
`kill` operation are embedded as events acting on the session state, so an
interleaving is a list of events.
-/

/-! ## JS string primitives over `List Char` -/

/-- JS `data.split(sep)` for a one-character separator, on character lists:
splitting the empty string yields one empty fragment, and a trailing
separator yields a trailing empty fragment. -/
def splitOnChar (sep : Char) : List Char → List (List Char)
  | [] => [[]]
  | c :: cs =>
    if c = sep then [] :: splitOnChar sep cs
    else
      match splitOnChar sep cs with
      | [] => [[c]]
      | h :: t => (c :: h) :: t

/-- JS `parts.join(sep)` for a one-character separator. -/
def joinSep (sep : Char) : List (List Char) → List Char
  | [] => []
  | [x] => x
  | x :: xs => x ++ sep :: joinSep sep xs

/-- The whitespace characters JS `String.prototype.trim` removes (the ones
relevant to this code base). -/
def jsWhitespace (c : Char) : Bool :=
  c = ' ' || c = '\t' || c = '\n' || c = '\r'

/-- JS `s.trim()` on character lists. -/
def jsTrimList (l : List Char) : List Char :=
  ((l.dropWhile jsWhitespace).reverse.dropWhile jsWhitespace).reverse

/-- JS `s.trim()`. -/
def jsTrim (s : String) : String :=
  String.mk (jsTrimList s.toList)

/-- JS `s.startsWith(pre)`. -/
def jsStartsWith (s pre : String) : Bool :=
  pre.toList.isPrefixOf s.toList

/-- JS `args.join(" ")`. -/
def joinSpace (args : List String) : String :=
  String.mk (joinSep ' ' (args.map String.toList))

/-! ## RingBuffer (src/services/RingBuffer.ts) -/

/-- One match of `RingBuffer.search` (src/types.ts `SearchMatch`):
a 1-based line number and the line's text. -/
structure SearchMatch where
  lineNumber : Nat
  text : String
deriving DecidableEq, Repr

/-- The ring buffer (src/services/RingBuffer.ts): the private `lines` array
and the `maxLines` capacity fixed by the constructor. -/
structure RingBuffer where
  maxLines : Nat
  lines : List String
deriving DecidableEq, Repr

/-- `data.split("\n")` of `RingBuffer.append`. -/
def splitLines (data : String) : List String :=
  (splitOnChar '\n' data.toList).map String.mk

/-- One iteration of the loop in `RingBuffer.append`:
`this.lines.push(line); if (this.lines.length > this.maxLines) this.lines.shift();` -/
def pushLine (maxLines : Nat) (lines : List String) (line : String) : List String :=
  let pushed := lines ++ [line]
  if maxLines < pushed.length then pushed.tail else pushed

/-- `RingBuffer.append(data)`: split on newlines, push each fragment,
evicting the oldest line whenever the capacity is exceeded. -/
def RingBuffer.append (rb : RingBuffer) (data : String) : RingBuffer :=
  { rb with lines := (splitLines data).foldl (pushLine rb.maxLines) rb.lines }

/-- `RingBuffer.clear()`. -/
def RingBuffer.clear (rb : RingBuffer) : RingBuffer :=
  { rb with lines := [] }

/-- `RingBuffer.length` getter. -/
def RingBuffer.length (rb : RingBuffer) : Nat :=
  rb.lines.length

/-- The loop of `RingBuffer.search(pattern)` from index `i`: for each line,
if `pattern.test(line)` then record the 1-based line number `i + 1` with the
text.  The `RegExp` (used only through `.test`, and built without the `g`
flag) is embedded as the predicate `p`. -/
def searchFrom (p : String → Bool) : Nat → List String → List SearchMatch
  | _, [] => []
  | i, line :: rest =>
    if p line then ⟨i + 1, line⟩ :: searchFrom p (i + 1) rest
    else searchFrom p (i + 1) rest

/-- `RingBuffer.search(pattern)`. -/
def RingBuffer.search (p : String → Bool) (rb : RingBuffer) : List SearchMatch :=
  searchFrom p 0 rb.lines

/-! ## JS `Array.prototype.slice` and the two pagination paths -/

/-- JS `l.slice(start, stop)` (ECMAScript: a negative index counts from the
end, both indices are clamped to the array's range). -/
def jsSlice {α : Type} (l : List α) (start stop : Int) : List α :=
  let len : Int := l.length
  let relStart : Int := if start < 0 then max (len + start) 0 else min start len
  let relStop : Int := if stop < 0 then max (len + stop) 0 else min stop len
  (l.take relStop.toNat).drop relStart.toNat

/-- The selection `RingBuffer.read(offset, limit)` performs on the `lines`
array: `start = Math.max(0, offset)`, `end = limit !== undefined ? start +
limit : lines.length`, `lines.slice(start, end)`. -/
def readSelect {α : Type} (l : List α) (offset : Int) (limit : Option Int) : List α :=
  let start : Int := max 0 offset
  match limit with
  | some lim => jsSlice l start (start + lim)
  | none => jsSlice l start l.length

/-- The selection the manager's `search` performs on the matches array:
`limit !== undefined ? allMatches.slice(offset, offset + limit) :
allMatches.slice(offset)` (no clamping of `offset`). -/
def searchSelect {α : Type} (l : List α) (offset : Int) (limit : Option Int) : List α :=
  match limit with
  | some lim => jsSlice l offset (offset + lim)
  | none => jsSlice l offset l.length

/-- `RingBuffer.read(offset, limit)`. -/
def RingBuffer.read (rb : RingBuffer) (offset : Int) (limit : Option Int) : List String :=
  readSelect rb.lines offset limit

-- Results of fallible operations are `Except` values; equality of concrete
-- results is decided during witness evaluation.
deriving instance DecidableEq for Except

/-! ## Sessions and the registry (src/types.ts, src/services/PTYManager.ts) -/

/-- `PTYStatus` from src/types.ts (the source type also lists "idle"). -/
inductive PTYStatus where
  | running
  | idle
  | exited
  | killed
deriving DecidableEq, Repr

/-- The mutable state of a `PTYSession` that the verified operations touch.
The descriptive fields (title, command, args, workdir, env, pid, createdAt,
description, notifyOnExit) are carried by the source record but never read
or written by the operations under verification and are omitted.  The
process handle is embedded by its observations: `procInput` accumulates the
strings forwarded to `process.write`, `procKilled` records that
`process.kill()` was called. -/
structure Session where
  id : String
  status : PTYStatus
  exitCode : Option Int
  buffer : RingBuffer
  procInput : List String
  procKilled : Bool
deriving DecidableEq, Repr

/-- The `sessions` JS `Map<string, PTYSession>`, as an association list in
insertion order (a JS `Map` iterates in insertion order and never holds a
key twice). -/
def Registry : Type := List (String × Session)

instance : DecidableEq Registry := inferInstanceAs (DecidableEq (List (String × Session)))

/-- `map.get(id)`. -/
def mapGet (reg : Registry) (k : String) : Option Session :=
  (List.find? (fun e => e.1 = k) reg).map (·.2)

/-- `map.set(id, session)`: replaces the value in place when the key is
present, appends at the end otherwise. -/
def mapSet (reg : Registry) (k : String) (v : Session) : Registry :=
  match reg with
  | [] => [(k, v)]
  | (k', v') :: rest => if k' = k then (k, v) :: rest else (k', v') :: mapSet rest k v

/-- `map.delete(id)`: removes the entry with the key, if any. -/
def mapDelete (reg : Registry) (k : String) : Registry :=
  match reg with
  | [] => []
  | (k', v') :: rest => if k' = k then rest else (k', v') :: mapDelete rest k

/-- The tagged errors of src/types.ts that the manager's operations fail
with: `PTYNotFoundError { id }` and `PTYNotRunningError { id, status }`. -/
inductive PTYError where
  | notFound (id : String)
  | notRunning (id : String) (status : PTYStatus)
deriving DecidableEq, Repr

/-- `ReadResult` from src/types.ts. -/
structure ReadResult where
  lines : List String
  totalLines : Nat
  offset : Int
  hasMore : Bool
  status : PTYStatus
deriving DecidableEq, Repr

/-- `SearchResult` from src/types.ts. -/
structure SearchResult where
  «matches» : List SearchMatch
  totalMatches : Nat
  totalLines : Nat
  offset : Int
  hasMore : Bool
  status : PTYStatus
deriving DecidableEq, Repr

/-- One hexadecimal digit as JS `toString(16)` renders it (lowercase). -/
def hexChar (n : Nat) : Char :=
  if n < 10 then Char.ofNat ('0'.toNat + n) else Char.ofNat ('a'.toNat + (n - 10))

/-- One byte of `generateId`: `b.toString(16).padStart(2, "0")` — for a
`Uint8Array` entry (`b < 256`) this is exactly the two hex digits of `b`. -/
def byteHex (b : Nat) : List Char :=
  [hexChar (b / 16), hexChar (b % 16)]

/-- `generateId` (src/services/PTYManager.ts): `"pty_"` followed by the hex
rendering of the four random bytes.  The randomness is made explicit: the
function is applied to the byte outcome `crypto.getRandomValues` produced. -/
def generateId (bytes : List Nat) : String :=
  String.mk ('p' :: 't' :: 'y' :: '_' :: (bytes.map byteHex).flatten)

namespace PTYManager

/-- The status transition performed by `kill` when the session is running:
`session.process.kill(); session.status = "killed"` (the exit code is not
touched). -/
def killTransition (s : Session) : Session :=
  if s.status = .running then { s with status := .killed, procKilled := true } else s

/-- The status transition performed by the `onExit` callback:
`if (s && s.status === "running") { s.status = "exited"; s.exitCode = exitCode; }`. -/
def exitTransition (exitCode : Int) (s : Session) : Session :=
  if s.status = .running then { s with status := .exited, exitCode := some exitCode } else s

/-- The two concurrent actors that mutate a session's terminal state: the
asynchronous PTY exit callback and the foreground `kill`. -/
inductive SessionEvent where
  | exitCb (exitCode : Int)
  | killCmd
deriving DecidableEq, Repr

/-- Apply one event to a session's state. -/
def applyEvent (s : Session) : SessionEvent → Session
  | .exitCb code => exitTransition code s
  | .killCmd => killTransition s

/-- Run an interleaving of exit-callback and kill events. -/
def runEvents (s : Session) (events : List SessionEvent) : Session :=
  events.foldl applyEvent s

/-- `write(id, data)` (src/services/PTYManager.ts): NotFound when the id is
unknown, NotRunning when the status is not running, otherwise the raw data
is forwarded to `session.process.write` unchanged.  The forwarding is the
observable effect, recorded in the session's `procInput`. -/
def write (id : String) (data : String) (reg : Registry) : Except PTYError Registry :=
  match mapGet reg id with
  | none => .error (.notFound id)
  | some s =>
    if s.status ≠ .running then .error (.notRunning id s.status)
    else .ok (mapSet reg id { s with procInput := s.procInput ++ [data] })

/-- `read(id, offset, limit)` (src/services/PTYManager.ts). -/
def read (id : String) (offset : Int) (limit : Option Int) (reg : Registry) :
    Except PTYError ReadResult :=
  match mapGet reg id with
  | none => .error (.notFound id)
  | some s =>
    let lines := s.buffer.read offset limit
    let totalLines := s.buffer.length
    .ok { lines := lines, totalLines := totalLines, offset := offset,
          hasMore := decide ((offset + lines.length : Int) < (totalLines : Int)),
          status := s.status }

/-- `search(id, pattern, offset, limit)` (src/services/PTYManager.ts). -/
def search (id : String) (p : String → Bool) (offset : Int) (limit : Option Int)
    (reg : Registry) : Except PTYError SearchResult :=
  match mapGet reg id with
  | none => .error (.notFound id)
  | some s =>
    let allMatches := RingBuffer.search p s.buffer
    let totalMatches := allMatches.length
    let paginatedMatches := searchSelect allMatches offset limit
    .ok { «matches» := paginatedMatches, totalMatches := totalMatches,
          totalLines := s.buffer.length, offset := offset,
          hasMore := decide ((offset + paginatedMatches.length : Int) < (totalMatches : Int)),
          status := s.status }

/-- `kill(id, cleanup)` (src/services/PTYManager.ts): NotFound when the id
is unknown; when the session is running its process is killed and the status
set to killed; when `cleanup` is true the buffer is cleared and the session
removed from the registry (regardless of the prior status). -/
def kill (id : String) (cleanup : Bool) (reg : Registry) : Except PTYError Registry :=
  match mapGet reg id with
  | none => .error (.notFound id)
  | some s =>
    let s1 := killTransition s
    if cleanup then .ok (mapDelete (mapSet reg id { s1 with buffer := s1.buffer.clear }) id)
    else .ok (mapSet reg id s1)

end PTYManager

/-! ## Permission engine (src/services/PermissionService.ts, src/types.ts) -/

/-- `PermissionAction` from src/types.ts. -/
inductive PermissionAction where
  | allow
  | ask
  | deny
deriving DecidableEq, Repr

/-- The `bash` field of `PermissionConfig`: either a single global action or
a record of wildcard patterns (a JS object, embedded as an association list
in property order). -/
inductive BashPerms where
  | global (a : PermissionAction)
  | patterns (rules : List (String × PermissionAction))
deriving DecidableEq, Repr

/-- `PermissionConfig` from src/types.ts: the parsed `PTY_PERMISSIONS`
document, of which the engine reads exactly the `bash` and
`external_directory` properties (any other property of the parsed JSON is
never consulted). -/
structure PermissionConfig where
  bash : Option BashPerms
  external_directory : Option PermissionAction
deriving DecidableEq, Repr

/-- `PermissionDeniedError` from src/types.ts: carries the offending command
line (or path) and a human-readable reason. -/
structure PermissionDeniedError where
  command : String
  reason : String
deriving DecidableEq, Repr

/-- Fueled wildcard match: does the pattern (where a star matches any run of
characters) match the whole candidate?  The fuel only serves termination and
is always sufficient at `globMatch`. -/
def globMatchAux : Nat → List Char → List Char → Bool
  | 0, _, _ => false
  | _ + 1, [], s => s.isEmpty
  | fuel + 1, p :: ps, s =>
    if p = '*' then
      match s with
      | [] => globMatchAux fuel ps []
      | c :: cs => globMatchAux fuel ps (c :: cs) || globMatchAux fuel (p :: ps) cs
    else
      match s with
      | [] => false
      | c :: cs => p = c && globMatchAux fuel ps cs

/-- Wildcard match of a whole pattern against a whole candidate string. -/
def globMatch (pattern candidate : String) : Bool :=
  globMatchAux (pattern.toList.length + candidate.toList.length + 1)
    pattern.toList candidate.toList

/-- Modelled from the spec: `Wildcard.allStructured` lives in
src/utils/wildcard.ts, which is not among the repository's source files.
Per the spec (§4.3), the full (command, args) pair — head = command name,
tail = ordered argument list, in the same representation used when rules
were authored, i.e. the space-joined command line — is matched against each
configured pattern with wildcard semantics where a star matches any run of
characters; the first matching pattern's action wins; if none match the
result is empty (the caller then defaults to allow). -/
def Wildcard.allStructured (head : String) (tail : List String)
    (rules : List (String × PermissionAction)) : Option PermissionAction :=
  let candidate :=
    match tail with
    | [] => head
    | _ => String.mk (head.toList ++ ' ' :: (joinSpace tail).toList)
  (rules.find? (fun r => globMatch r.1 candidate)).map (·.2)

/-- `getPermissionAction(command, args, config)`
(src/services/PermissionService.ts): no `bash` rule means allow, a string
rule is a global action, an object rule is wildcard-matched with allow as
the fallback (`?? "allow"`). -/
def getPermissionAction (command : String) (args : List String)
    (config : PermissionConfig) : PermissionAction :=
  match config.bash with
  | none => .allow
  | some (.global a) => a
  | some (.patterns rules) => (Wildcard.allStructured command args rules).getD .allow

/-- The offending command line both rejection branches of `checkCommand`
report: backtick-template `command args.join(" ")`, trimmed. -/
def cmdLine (command : String) (args : List String) : String :=
  jsTrim (String.mk (command.toList ++ ' ' :: (joinSpace args).toList))

/-- `checkCommand(command, args)` (src/services/PermissionService.ts):
deny rejects, ask rejects as well (no interactive channel), anything else
returns true. -/
def checkCommand (command : String) (args : List String) (config : PermissionConfig) :
    Except PermissionDeniedError Bool :=
  let action := getPermissionAction command args config
  if action = .deny then
    .error { command := cmdLine command args,
             reason := "Command is denied by configuration" }
  else if action = .ask then
    .error { command := cmdLine command args,
             reason := "Command requires approval (ask mode not supported in MCP)" }
  else .ok true

/-- `path.resolve(p)` of Node's posix path module, with the process working
directory `cwd` made explicit: a relative path is appended to `cwd`, then
`.`, `..`, empty segments and trailing slashes are resolved lexically and
the result always starts with a slash. -/
def resolvePath (cwd p : String) : String :=
  let full : List Char :=
    if p.toList.head? = some '/' then p.toList else cwd.toList ++ '/' :: p.toList
  let segs := splitOnChar '/' full
  let norm := segs.foldl
    (fun acc seg =>
      if seg = [] then acc
      else if seg = ['.'] then acc
      else if seg = ['.', '.'] then acc.dropLast
      else acc ++ [seg])
    ([] : List (List Char))
  String.mk ('/' :: joinSep '/' norm)

/-- What `checkWorkdir` observably does on success: it returns `true`, and
in the outside-root ask branch it also emits a warning log (`console.warn`);
`warned` records that emission. -/
structure WorkdirCheck where
  allowed : Bool
  warned : Bool
deriving DecidableEq, Repr

/-- The spec's notion of a path lying inside a root directory: the
canonical path is the root itself or a path below it. -/
def insideDir (p root : String) : Bool :=
  p = root || (String.mk (root.toList ++ ['/'])).toList.isPrefixOf p.toList

/-- `checkWorkdir(workdir, projectDir)` (src/services/PermissionService.ts):
both paths are canonicalized with `path.resolve`; when the canonical workdir
does not start with the canonical project dir (`String.prototype.startsWith`)
the configured `external_directory` action (default allow) is applied: deny
rejects with the raw workdir and a reason, ask logs a warning and is
accepted, allow is accepted silently.  Otherwise the check succeeds. -/
def checkWorkdir (cwd : String) (workdir projectDir : String)
    (config : PermissionConfig) : Except PermissionDeniedError WorkdirCheck :=
  let normalized := resolvePath cwd workdir
  let normalizedProject := resolvePath cwd projectDir
  if ¬ (jsStartsWith normalized normalizedProject) then
    let action := config.external_directory.getD .allow
    if action = .deny then
      .error { command := workdir, reason := "External directory access is denied" }
    else .ok { allowed := true, warned := action = .ask }
  else .ok { allowed := true, warned := false }

/-! ## Concrete instances used by witnesses and counterexamples -/

/-- A freshly spawned session, as `spawn` creates it: status running, no
exit code yet. -/
def sampleRunning : Session :=
  { id := "pty_00000000", status := .running, exitCode := none,
    buffer := { maxLines := 50000, lines := [] }, procInput := [], procKilled := false }

/-- Two concrete sessions; only the second survives when both are registered
under the same id. -/
def sessionA : Session :=
  { id := "pty_00000000", status := .running, exitCode := none,
    buffer := { maxLines := 50000, lines := [] }, procInput := [], procKilled := false }

def sessionB : Session :=
  { id := "pty_00000000", status := .running, exitCode := none,
    buffer := { maxLines := 50000, lines := ["b"] }, procInput := [], procKilled := false }

/-- A running session with two buffered lines. -/
def sessionTwoLines : Session :=
  { id := "s", status := .running, exitCode := none,
    buffer := { maxLines := 50000, lines := ["a", "b"] },
    procInput := [], procKilled := false }

/-- The engine's view of the spec's literal scenario policy document
`PTY_PERMISSIONS` = (an object with the single property git mapping push to
deny): `getPermissionAction` and `checkWorkdir` read exactly the `bash` and
`external_directory` properties of the parsed JSON and no others, so this
document configures neither — both are absent. -/
def policyGitPushDeny : PermissionConfig :=
  { bash := none, external_directory := none }

/-- The same scenario expressed in the configuration shape the engine
actually reads (compare the repository's own documented examples): the
`bash` property maps the full command-line pattern to the action. -/
def policyBashGitPushDeny : PermissionConfig :=
  { bash := some (.patterns [("git push", .deny)]), external_directory := none }

/-! ## Lemmas about splitting and the ring buffer -/

lemma splitOnChar_ne_nil (sep : Char) (cs : List Char) : splitOnChar sep cs ≠ [] := by
  induction cs with
  | nil => simp [splitOnChar]
  | cons c cs ih =>
    simp only [splitOnChar]
    by_cases h : c = sep
    · simp [h]
    · simp only [h, if_false]
      cases hs : splitOnChar sep cs with
      | nil => simp
      | cons hd tl => simp

lemma length_splitOnChar (sep : Char) (cs : List Char) :
    (splitOnChar sep cs).length = cs.count sep + 1 := by
  induction cs with
  | nil => simp [splitOnChar]
  | cons c cs ih =>
    by_cases h : c = sep
    · subst h
      simp [splitOnChar, ih, List.count_cons]
    · rw [List.count_cons]
      simp only [beq_iff_eq]
      rw [if_neg h]
      simp only [splitOnChar]
      rw [if_neg h]
      cases hs : splitOnChar sep cs with
      | nil => exact absurd hs (splitOnChar_ne_nil sep cs)
      | cons hd tl =>
        rw [hs] at ih
        simp only [List.length_cons] at ih ⊢
        omega

lemma splitOnChar_append_sep (sep : Char) (cs : List Char) :
    splitOnChar sep (cs ++ [sep]) = splitOnChar sep cs ++ [[]] := by
  induction cs with
  | nil => simp [splitOnChar]
  | cons c cs ih =>
    by_cases h : c = sep
    · subst h
      simp [splitOnChar, ih]
    · cases hs : splitOnChar sep cs with
      | nil => exact absurd hs (splitOnChar_ne_nil sep cs)
      | cons hd tl =>
        simp only [List.cons_append, splitOnChar, List.append_eq]
        rw [if_neg h, if_neg h, ih, hs]
        simp

/-- The loop of `RingBuffer.append` over a list of already-split fragments,
in closed form: from a state within capacity, the result is the last
`maxLines` entries of the state followed by the fragments. -/
lemma foldl_pushLine (c : Nat) :
    ∀ (frags s : List String), s.length ≤ c →
      frags.foldl (pushLine c) s = (s ++ frags).drop (s.length + frags.length - c) := by
  intro frags
  induction frags with
  | nil =>
    intro s hs
    simp [Nat.sub_eq_zero_of_le hs]
  | cons x rest ih =>
    intro s hs
    rw [List.foldl_cons]
    by_cases h : c < (s ++ [x]).length
    · have hlen : s.length = c := by
        simp only [List.length_append, List.length_cons, List.length_nil] at h
        omega
      have htail : pushLine c s x = (s ++ [x]).tail := by
        simp only [pushLine]
        rw [if_pos h]
      rw [htail, ih _ (by simp [List.length_tail]; omega)]
      have h1 : (s ++ [x]).tail ++ rest = (s ++ x :: rest).drop 1 := by
        cases s with
        | nil => simp
        | cons a s' => simp
      rw [h1, List.drop_drop]
      congr 1
      simp only [List.length_tail, List.length_append, List.length_cons, List.length_nil]
      omega
    · have hpush : pushLine c s x = s ++ [x] := by
        simp only [pushLine]
        rw [if_neg h]
      have hle : (s ++ [x]).length ≤ c := by omega
      rw [hpush, ih _ hle]
      have h2 : (s ++ [x]) ++ rest = s ++ x :: rest := by simp
      rw [h2]
      congr 1
      simp only [List.length_append, List.length_cons, List.length_nil]
      omega

/-- Folding `RingBuffer.append` over a list of chunks acts on the lines as
the fragment loop over the concatenation of all the chunks' fragments, and
never changes the capacity. -/
lemma foldl_append_lines (chunks : List String) (c : Nat) :
    ∀ s : List String,
      (chunks.foldl RingBuffer.append ⟨c, s⟩).lines
          = ((chunks.map splitLines).flatten).foldl (pushLine c) s ∧
        (chunks.foldl RingBuffer.append ⟨c, s⟩).maxLines = c := by
  induction chunks with
  | nil => intro s; simp
  | cons ch rest ih =>
    intro s
    rw [List.foldl_cons]
    have : RingBuffer.append ⟨c, s⟩ ch = ⟨c, (splitLines ch).foldl (pushLine c) s⟩ := rfl
    rw [this]
    rcases ih ((splitLines ch).foldl (pushLine c) s) with ⟨h1, h2⟩
    refine ⟨?_, h2⟩
    rw [h1]
    simp [List.foldl_append]

/-! ## C3 and C10: RingBuffer append -/

/-- C3: starting from an empty buffer of capacity `c`, after appending any
sequence of chunks the buffer never holds more than `c` lines, and when the
chunks supplied a total of `c + k` line fragments (`k > 0`) it holds exactly
the last `c` fragments in arrival order: the oldest `k` fragments are
evicted and the survivors keep their relative order. -/
theorem c3_ringbuffer_capacity_last (c k : Nat) (chunks : List String) :
    ((chunks.foldl RingBuffer.append ⟨c, []⟩).lines).length ≤ c ∧
    (((chunks.map splitLines).flatten).length = c + k → 0 < k →
      (chunks.foldl RingBuffer.append ⟨c, []⟩).lines
        = ((chunks.map splitLines).flatten).drop k) := by
  obtain ⟨hl, -⟩ := foldl_append_lines chunks c []
  constructor
  · rw [hl, foldl_pushLine c _ [] (by simp)]
    simp only [List.nil_append, List.length_nil, Nat.zero_add, List.length_drop]
    omega
  · intro htot hk
    rw [hl, foldl_pushLine c _ [] (by simp)]
    simp only [List.nil_append, List.length_nil, Nat.zero_add]
    rw [htot]
    congr 1
    omega

/-- C10: `RingBuffer.append` produces exactly (number of newline characters)
+ 1 fragments from a chunk — never zero: the empty chunk contributes one
empty line, a chunk ending in a newline contributes a final empty line, and
when no eviction occurs the fragments are appended as independent lines
after the existing ones (fragments of consecutive chunks are never merged).
-/
theorem c10_fragments_per_chunk (data : String) :
    (splitLines data).length = data.toList.count '\n' + 1 ∧
    splitLines "" = [""] ∧
    splitLines (data ++ "\n") = splitLines data ++ [""] ∧
    (∀ rb : RingBuffer, rb.lines.length + (splitLines data).length ≤ rb.maxLines →
      (rb.append data).lines = rb.lines ++ splitLines data) := by
  refine ⟨?_, by decide, ?_, ?_⟩
  · simp [splitLines, length_splitOnChar]
  · have hto : (data ++ "\n").toList = data.toList ++ ['\n'] := by
      simp [String.toList, String.data_append]
    simp [splitLines, hto, splitOnChar_append_sep]
  · intro rb h
    have hdef : (rb.append data).lines
        = (splitLines data).foldl (pushLine rb.maxLines) rb.lines := rfl
    rw [hdef, foldl_pushLine rb.maxLines _ rb.lines (by omega)]
    have hz : rb.lines.length + (splitLines data).length - rb.maxLines = 0 := by omega
    rw [hz, List.drop_zero]

/-! ## C9: RingBuffer search -/

lemma searchFrom_pos_gt (p : String → Bool) :
    ∀ (ls : List String) (k : Nat) (m : SearchMatch),
      m ∈ searchFrom p k ls → k < m.lineNumber := by
  intro ls
  induction ls with
  | nil => intro k m hm; simp [searchFrom] at hm
  | cons line rest ih =>
    intro k m hm
    simp only [searchFrom] at hm
    by_cases h : p line
    · rw [if_pos h] at hm
      rcases List.mem_cons.mp hm with rfl | hm'
      · exact Nat.lt_succ_self k
      · have := ih (k + 1) m hm'
        omega
    · rw [if_neg h] at hm
      have := ih (k + 1) m hm
      omega

lemma searchFrom_pairwise (p : String → Bool) :
    ∀ (ls : List String) (k : Nat),
      (searchFrom p k ls).Pairwise (fun a b => a.lineNumber < b.lineNumber) := by
  intro ls
  induction ls with
  | nil => intro k; simp [searchFrom]
  | cons line rest ih =>
    intro k
    simp only [searchFrom]
    by_cases h : p line
    · rw [if_pos h]
      refine List.Pairwise.cons ?_ (ih (k + 1))
      intro b hb
      exact searchFrom_pos_gt p rest (k + 1) b hb
    · rw [if_neg h]
      exact ih (k + 1)

lemma mem_searchFrom (p : String → Bool) :
    ∀ (ls : List String) (k n : Nat) (l : String),
      (⟨n, l⟩ : SearchMatch) ∈ searchFrom p k ls ↔
        ∃ i, ls[i]? = some l ∧ p l = true ∧ n = k + i + 1 := by
  intro ls
  induction ls with
  | nil => intro k n l; simp [searchFrom]
  | cons line rest ih =>
    intro k n l
    simp only [searchFrom]
    by_cases h : p line
    · rw [if_pos h]
      constructor
      · intro hm
        rcases List.mem_cons.mp hm with heq | hm'
        · injection heq with h1 h2
          subst h1
          subst h2
          exact ⟨0, by simp, h, by omega⟩
        · rcases (ih (k + 1) n l).mp hm' with ⟨i, hi, hp, hn⟩
          exact ⟨i + 1, by simpa using hi, hp, by omega⟩
      · rintro ⟨i, hi, hp, hn⟩
        cases i with
        | zero =>
          simp only [List.getElem?_cons_zero, Option.some.injEq] at hi
          subst hi
          have : n = k + 1 := by omega
          subst this
          exact List.mem_cons_self _ _
        | succ j =>
          exact List.mem_cons.mpr
            (Or.inr ((ih (k + 1) n l).mpr ⟨j, by simpa using hi, hp, by omega⟩))
    · rw [if_neg h]
      constructor
      · intro hm
        rcases (ih (k + 1) n l).mp hm with ⟨i, hi, hp, hn⟩
        exact ⟨i + 1, by simpa using hi, hp, by omega⟩
      · rintro ⟨i, hi, hp, hn⟩
        cases i with
        | zero =>
          simp only [List.getElem?_cons_zero, Option.some.injEq] at hi
          subst hi
          exact absurd hp h
        | succ j =>
          exact (ih (k + 1) n l).mpr ⟨j, by simpa using hi, hp, by omega⟩

/-- C9: `RingBuffer.search` returns exactly the lines of the current buffer
content that satisfy the pattern — a pair `(n, l)` is returned precisely
when line `n` (1-based, relative to the current, post-eviction content) is
`l` and `l` matches — and the returned positions are strictly ascending, so
no matching line is skipped or duplicated. -/
theorem c9_search_exact_matches (p : String → Bool) (rb : RingBuffer) :
    (RingBuffer.search p rb).Pairwise (fun a b => a.lineNumber < b.lineNumber) ∧
    (∀ (n : Nat) (l : String),
      (⟨n, l⟩ : SearchMatch) ∈ RingBuffer.search p rb ↔
        ∃ i, rb.lines[i]? = some l ∧ p l = true ∧ n = i + 1) := by
  refine ⟨searchFrom_pairwise p rb.lines 0, ?_⟩
  intro n l
  rw [RingBuffer.search, mem_searchFrom]
  constructor
  · rintro ⟨i, hi, hp, hn⟩
    exact ⟨i, hi, hp, by omega⟩
  · rintro ⟨i, hi, hp, hn⟩
    exact ⟨i, hi, hp, by omega⟩

/-! ## C1: status transitions under exit-callback / kill interleavings -/

lemma applyEvent_terminal (s : Session) (e : PTYManager.SessionEvent)
    (h : s.status ≠ .running) : PTYManager.applyEvent s e = s := by
  cases e <;>
    simp [PTYManager.applyEvent, PTYManager.exitTransition, PTYManager.killTransition, h]

lemma runEvents_append (s : Session) (t₁ t₂ : List PTYManager.SessionEvent) :
    PTYManager.runEvents s (t₁ ++ t₂)
      = PTYManager.runEvents (PTYManager.runEvents s t₁) t₂ :=
  List.foldl_append _ _ _ _

lemma runEvents_terminal (s : Session) (h : s.status ≠ .running) :
    ∀ t : List PTYManager.SessionEvent, PTYManager.runEvents s t = s := by
  intro t
  induction t with
  | nil => rfl
  | cons e t ih =>
    have h1 : PTYManager.runEvents s (e :: t)
        = PTYManager.runEvents (PTYManager.applyEvent s e) t := rfl
    rw [h1, applyEvent_terminal s e h]
    exact ih

lemma runEvents_from_running (s : Session) (h : s.status = .running) :
    ∀ t : List PTYManager.SessionEvent,
      PTYManager.runEvents s t = s ∨
      ((PTYManager.runEvents s t).status = .exited ∨
       (PTYManager.runEvents s t).status = .killed) := by
  intro t
  cases t with
  | nil => exact Or.inl rfl
  | cons e t =>
    right
    have h1 : PTYManager.runEvents s (e :: t)
        = PTYManager.runEvents (PTYManager.applyEvent s e) t := rfl
    cases e with
    | exitCb code =>
      have h2 : PTYManager.applyEvent s (.exitCb code)
          = { s with status := .exited, exitCode := some code } := by
        simp [PTYManager.applyEvent, PTYManager.exitTransition, h]
      rw [h1, h2, runEvents_terminal _ (by simp)]
      simp
    | killCmd =>
      have h2 : PTYManager.applyEvent s .killCmd
          = { s with status := .killed, procKilled := true } := by
        simp [PTYManager.applyEvent, PTYManager.killTransition, h]
      rw [h1, h2, runEvents_terminal _ (by simp)]
      simp

/-- C1: from a freshly spawned session (status running), under every
interleaving of the exit callback and kill the status is always running,
exited or killed (never the source type's fourth value); a session still
running is untouched (in particular its exit code is still the initial
one); a terminal session is frozen — no further events change its status,
exit code or anything else; and from a running session the exit callback
performs exactly the running → exited transition recording the exit code,
while kill performs exactly running → killed, not touching the exit code. -/
theorem c1_status_transitions (s0 : Session) (t : List PTYManager.SessionEvent)
    (h0 : s0.status = .running) :
    ((PTYManager.runEvents s0 t).status = .running ∨
     (PTYManager.runEvents s0 t).status = .exited ∨
     (PTYManager.runEvents s0 t).status = .killed) ∧
    ((PTYManager.runEvents s0 t).status = .running → PTYManager.runEvents s0 t = s0) ∧
    ((PTYManager.runEvents s0 t).status ≠ .running →
      ∀ t₂, PTYManager.runEvents s0 (t ++ t₂) = PTYManager.runEvents s0 t) ∧
    ((PTYManager.runEvents s0 t).status = .running →
      ∀ code, PTYManager.runEvents s0 (t ++ [.exitCb code])
          = { PTYManager.runEvents s0 t with status := .exited, exitCode := some code } ∧
        PTYManager.runEvents s0 (t ++ [.killCmd])
          = { PTYManager.runEvents s0 t with status := .killed, procKilled := true }) := by
  have hcase := runEvents_from_running s0 h0 t
  refine ⟨?_, ?_, ?_, ?_⟩
  · rcases hcase with heq | hterm
    · rw [heq]
      exact Or.inl h0
    · exact Or.inr hterm
  · intro hr
    rcases hcase with heq | hterm
    · exact heq
    · rcases hterm with h | h <;> rw [hr] at h <;> exact absurd h (by simp)
  · intro hnr t₂
    rw [runEvents_append]
    exact runEvents_terminal _ hnr t₂
  · intro hr code
    constructor
    · rw [runEvents_append]
      have h1 : PTYManager.runEvents (PTYManager.runEvents s0 t) [.exitCb code]
          = PTYManager.applyEvent (PTYManager.runEvents s0 t) (.exitCb code) := rfl
      rw [h1]
      simp [PTYManager.applyEvent, PTYManager.exitTransition, hr]
    · rw [runEvents_append]
      have h1 : PTYManager.runEvents (PTYManager.runEvents s0 t) [.killCmd]
          = PTYManager.applyEvent (PTYManager.runEvents s0 t) .killCmd := rfl
      rw [h1]
      simp [PTYManager.applyEvent, PTYManager.killTransition, hr]


/-- Witness for C1 at a concrete session and interleaving. -/
theorem c1_status_transitions_witness :
    (PTYManager.runEvents sampleRunning [.killCmd]).status = .running ∨
    (PTYManager.runEvents sampleRunning [.killCmd]).status = .exited ∨
    (PTYManager.runEvents sampleRunning [.killCmd]).status = .killed :=
  (c1_status_transitions sampleRunning [.killCmd] rfl).1

/-! ## Registry map lemmas -/

lemma mapGet_cons (k0 : String) (v0 : Session) (rest : Registry) (k : String) :
    mapGet ((k0, v0) :: rest) k = if k0 = k then some v0 else mapGet rest k := by
  by_cases h : k0 = k
  · rw [if_pos h]
    show (List.find? (fun e => e.1 = k) ((k0, v0) :: rest)).map (·.2) = some v0
    rw [List.find?_cons_of_pos _ (by simp [h])]
    rfl
  · rw [if_neg h]
    show (List.find? (fun e => e.1 = k) ((k0, v0) :: rest)).map (·.2)
        = (List.find? (fun e => e.1 = k) rest).map (·.2)
    rw [List.find?_cons_of_neg _ (by simp [h])]

lemma mapGet_nil (k : String) : mapGet [] k = none := rfl

lemma mapGet_mapSet_self (reg : Registry) (k : String) (v : Session) :
    mapGet (mapSet reg k v) k = some v := by
  induction reg with
  | nil => simp [mapSet, mapGet_cons]
  | cons e rest ih =>
    obtain ⟨k0, v0⟩ := e
    by_cases h : k0 = k
    · subst h
      simp [mapSet, mapGet_cons]
    · simp only [mapSet, if_neg h]
      rw [mapGet_cons, if_neg h]
      exact ih

lemma mapGet_mapSet_ne (reg : Registry) (k : String) (v : Session) (k' : String)
    (h : k' ≠ k) : mapGet (mapSet reg k v) k' = mapGet reg k' := by
  induction reg with
  | nil =>
    simp only [mapSet]
    rw [mapGet_cons, if_neg (Ne.symm h), mapGet_nil]
  | cons e rest ih =>
    obtain ⟨k0, v0⟩ := e
    by_cases h0 : k0 = k
    · subst h0
      have hset : mapSet ((k0, v0) :: rest) k0 v = (k0, v) :: rest := by
        simp [mapSet]
      rw [hset, mapGet_cons, if_neg (Ne.symm h), mapGet_cons, if_neg (Ne.symm h)]
    · simp only [mapSet, if_neg h0]
      rw [mapGet_cons, mapGet_cons]
      by_cases hk0 : k0 = k'
      · rw [if_pos hk0, if_pos hk0]
      · rw [if_neg hk0, if_neg hk0]
        exact ih

lemma mapGet_eq_none_of_not_key (reg : Registry) (k : String)
    (h : k ∉ reg.map Prod.fst) : mapGet reg k = none := by
  induction reg with
  | nil => rfl
  | cons e rest ih =>
    obtain ⟨k0, v0⟩ := e
    simp only [List.map_cons, List.mem_cons, not_or] at h
    rw [mapGet_cons, if_neg (Ne.symm h.1)]
    exact ih h.2

lemma keys_mapSet (reg : Registry) (k : String) (v : Session) :
    (mapSet reg k v).map Prod.fst
      = if k ∈ reg.map Prod.fst then reg.map Prod.fst
        else reg.map Prod.fst ++ [k] := by
  induction reg with
  | nil => simp [mapSet]
  | cons e rest ih =>
    obtain ⟨k0, v0⟩ := e
    by_cases h0 : k0 = k
    · subst h0
      simp [mapSet]
    · simp only [mapSet, if_neg h0, List.map_cons, ih]
      by_cases hmem : k ∈ rest.map Prod.fst
      · rw [if_pos hmem, if_pos (by simp [hmem])]
      · rw [if_neg hmem,
          if_neg (by simp only [List.mem_cons, not_or]; exact ⟨Ne.symm h0, hmem⟩)]
        simp

lemma nodup_keys_mapSet (reg : Registry) (k : String) (v : Session)
    (h : (reg.map Prod.fst).Nodup) : ((mapSet reg k v).map Prod.fst).Nodup := by
  rw [keys_mapSet]
  by_cases hmem : k ∈ reg.map Prod.fst
  · rwa [if_pos hmem]
  · rw [if_neg hmem]
    refine List.Nodup.append h (List.nodup_singleton k) ?_
    intro a ha hb
    simp only [List.mem_singleton] at hb
    subst hb
    exact hmem ha

lemma mapGet_mapDelete_self (reg : Registry) (k : String)
    (h : (reg.map Prod.fst).Nodup) : mapGet (mapDelete reg k) k = none := by
  induction reg with
  | nil => rfl
  | cons e rest ih =>
    obtain ⟨k0, v0⟩ := e
    simp only [List.map_cons, List.nodup_cons] at h
    by_cases hk : k0 = k
    · subst hk
      simp only [mapDelete, if_pos rfl]
      exact mapGet_eq_none_of_not_key rest k0 h.1
    · simp only [mapDelete, if_neg hk]
      rw [mapGet_cons, if_neg hk]
      exact ih h.2

/-! ## C4: write -/

/-- C4: `write(id, data)` fails NotFound exactly when the id is not in the
registry, fails NotRunning exactly when the id is known but its session is
not running (so a write to an exited session never silently succeeds), and
otherwise succeeds, forwarding the given data unchanged to the process
handle's input. -/
theorem c4_write_errors (reg : Registry) (id data : String) :
    (PTYManager.write id data reg = .error (.notFound id) ↔ mapGet reg id = none) ∧
    ((∃ st, PTYManager.write id data reg = .error (.notRunning id st)) ↔
      (∃ s, mapGet reg id = some s ∧ s.status ≠ .running)) ∧
    (∀ s, mapGet reg id = some s → s.status = .running →
      PTYManager.write id data reg
        = .ok (mapSet reg id { s with procInput := s.procInput ++ [data] })) := by
  cases hm : mapGet reg id with
  | none =>
    refine ⟨by simp [PTYManager.write, hm], ?_, ?_⟩
    · constructor
      · rintro ⟨st, hw⟩
        simp [PTYManager.write, hm] at hw
      · rintro ⟨s, hs, -⟩
        cases hs
    · intro s hs
      cases hs
  | some s =>
    by_cases hr : s.status = .running
    · refine ⟨by simp [PTYManager.write, hm, hr], ?_, ?_⟩
      · constructor
        · rintro ⟨st, hw⟩
          simp [PTYManager.write, hm, hr] at hw
        · rintro ⟨s', hs', hne⟩
          cases hs'
          exact absurd hr hne
      · rintro s' hs' -
        cases hs'
        simp [PTYManager.write, hm, hr]
    · refine ⟨by simp [PTYManager.write, hm, hr], ?_, ?_⟩
      · constructor
        · rintro -
          exact ⟨s, rfl, hr⟩
        · rintro -
          exact ⟨s.status, by simp [PTYManager.write, hm, hr]⟩
      · intro s' hs' hrun
        cases hs'
        exact absurd hrun hr

/-! ## C5: kill with and without cleanup -/

lemma readSelect_zero_none {α : Type} (l : List α) : readSelect l 0 none = l := by
  simp only [readSelect, jsSlice]
  have h : ¬((l.length : Int) < 0) := by omega
  simp [h]

/-- C5: `kill` on an unknown id fails NotFound; `kill(id, cleanup=false)` on
a known session keeps it in the registry (still listable) with its buffer
untouched and — for any session whose status is one the spec's data model
admits — a terminal status; `kill(id, cleanup=true)` removes the session
from the registry regardless of its prior status, so subsequent write, read
and kill operations on that id all fail NotFound. -/
theorem c5_kill_frame (reg : Registry) (id : String) :
    (mapGet reg id = none → ∀ c, PTYManager.kill id c reg = .error (.notFound id)) ∧
    (∀ s, mapGet reg id = some s →
      PTYManager.kill id false reg = .ok (mapSet reg id (PTYManager.killTransition s)) ∧
      (PTYManager.killTransition s).buffer = s.buffer ∧
      mapGet (mapSet reg id (PTYManager.killTransition s)) id
        = some (PTYManager.killTransition s) ∧
      (∃ r, PTYManager.read id 0 none (mapSet reg id (PTYManager.killTransition s))
          = .ok r ∧ r.lines = s.buffer.lines ∧ r.totalLines = s.buffer.lines.length) ∧
      (s.status ≠ .idle →
        ((PTYManager.killTransition s).status = .exited ∨
         (PTYManager.killTransition s).status = .killed))) ∧
    (∀ s, mapGet reg id = some s → (reg.map Prod.fst).Nodup →
      ∃ reg', PTYManager.kill id true reg = .ok reg' ∧ mapGet reg' id = none ∧
        (∀ data, PTYManager.write id data reg' = .error (.notFound id)) ∧
        (∀ off lim, PTYManager.read id off lim reg' = .error (.notFound id)) ∧
        (∀ c, PTYManager.kill id c reg' = .error (.notFound id))) := by
  refine ⟨?_, ?_, ?_⟩
  · intro hm c
    simp [PTYManager.kill, hm]
  · intro s hm
    have hbuf : (PTYManager.killTransition s).buffer = s.buffer := by
      simp only [PTYManager.killTransition]
      split <;> rfl
    refine ⟨by simp [PTYManager.kill, hm], hbuf, mapGet_mapSet_self reg id _, ?_, ?_⟩
    · have hread : PTYManager.read id 0 none (mapSet reg id (PTYManager.killTransition s))
          = .ok { lines := s.buffer.lines,
                  totalLines := s.buffer.lines.length, offset := 0,
                  hasMore := decide (((0 : Int) + (s.buffer.lines.length : Int))
                      < (s.buffer.lines.length : Int)),
                  status := (PTYManager.killTransition s).status } := by
        simp [PTYManager.read, mapGet_mapSet_self, RingBuffer.read, RingBuffer.length,
          hbuf, readSelect_zero_none]
      exact ⟨_, hread, rfl, rfl⟩
    · intro hidle
      simp only [PTYManager.killTransition]
      by_cases hr : s.status = .running
      · rw [if_pos hr]
        exact Or.inr rfl
      · rw [if_neg hr]
        cases hst : s.status with
        | running => exact absurd hst hr
        | idle => exact absurd hst hidle
        | exited => exact Or.inl rfl
        | killed => exact Or.inr rfl
  · intro s hm hnd
    have hkill : PTYManager.kill id true reg
        = .ok (mapDelete (mapSet reg id
            { PTYManager.killTransition s with
              buffer := (PTYManager.killTransition s).buffer.clear }) id) := by
      simp [PTYManager.kill, hm]
    refine ⟨_, hkill, ?_, ?_, ?_, ?_⟩
    · exact mapGet_mapDelete_self _ id (nodup_keys_mapSet reg id _ hnd)
    · intro data
      simp [PTYManager.write,
        mapGet_mapDelete_self _ id (nodup_keys_mapSet reg id _ hnd)]
    · intro off lim
      simp [PTYManager.read,
        mapGet_mapDelete_self _ id (nodup_keys_mapSet reg id _ hnd)]
    · intro c
      simp [PTYManager.kill,
        mapGet_mapDelete_self _ id (nodup_keys_mapSet reg id _ hnd)]

/-! ## C2: spawn id generation and registration -/

lemma hexChar_inj : ∀ x < 16, ∀ y < 16, hexChar x = hexChar y → x = y := by decide

lemma byteHex_inj (x y : Nat) (hx : x < 256) (hy : y < 256)
    (h : byteHex x = byteHex y) : x = y := by
  simp only [byteHex, List.cons.injEq, and_true] at h
  have h1 : x / 16 = y / 16 :=
    hexChar_inj (x / 16) (by omega) (y / 16) (by omega) h.1
  have h2 : x % 16 = y % 16 :=
    hexChar_inj (x % 16) (by omega) (y % 16) (by omega) h.2
  omega


/-- C2 counterexample: the claim quantifies over all outcomes of the random
bytes, but when two spawns draw the same four bytes (an outcome of positive
probability, here 0,0,0,0 twice) `generateId` produces the same id twice,
and registering the second session under the already-present id displaces
the first (`Map.set` overwrites): the registry afterwards holds `sessionB`,
not the previously registered `sessionA`. -/
theorem c2_counterexample :
    generateId [0, 0, 0, 0] = generateId [0, 0, 0, 0] ∧
    generateId [0, 0, 0, 0] = "pty_00000000" ∧
    mapGet (mapSet (mapSet [] "pty_00000000" sessionA) "pty_00000000" sessionB)
        "pty_00000000" = some sessionB ∧
    sessionB ≠ sessionA := by
  refine ⟨rfl, by decide, by decide, by decide⟩

/-- C2 amended: ids generated by two spawn calls are distinct whenever the
four random bytes drawn differ (`generateId` is injective on byte vectors),
and registering a session under an id that is not yet in the registry never
displaces an existing session: the new binding is added and every other
binding is unchanged. -/
theorem c2_id_unique_amended :
    (∀ (b₁ b₂ : List Nat), b₁.length = 4 → b₂.length = 4 →
      (∀ x ∈ b₁, x < 256) → (∀ x ∈ b₂, x < 256) →
      generateId b₁ = generateId b₂ → b₁ = b₂) ∧
    (∀ (reg : Registry) (id : String) (v : Session), mapGet reg id = none →
      mapGet (mapSet reg id v) id = some v ∧
      ∀ id', id' ≠ id → mapGet (mapSet reg id v) id' = mapGet reg id') := by
  constructor
  · intro b₁ b₂ h1 h2 hb1 hb2 heq
    obtain ⟨x0, t1, rfl⟩ : ∃ a t, b₁ = a :: t := by
      cases b₁ with
      | nil => simp at h1
      | cons a t => exact ⟨a, t, rfl⟩
    obtain ⟨x1, x2, x3, rfl⟩ : ∃ a b c, t1 = [a, b, c] := by
      refine List.length_eq_three.mp ?_
      simpa using h1
    obtain ⟨y0, t2, rfl⟩ : ∃ a t, b₂ = a :: t := by
      cases b₂ with
      | nil => simp at h2
      | cons a t => exact ⟨a, t, rfl⟩
    obtain ⟨y1, y2, y3, rfl⟩ : ∃ a b c, t2 = [a, b, c] := by
      refine List.length_eq_three.mp ?_
      simpa using h2
    have hdata : ('p' :: 't' :: 'y' :: '_' :: ([x0, x1, x2, x3].map byteHex).flatten)
        = ('p' :: 't' :: 'y' :: '_' :: ([y0, y1, y2, y3].map byteHex).flatten) := by
      simpa [generateId] using congrArg String.data heq
    simp [byteHex] at hdata
    have hx0 : x0 < 256 := hb1 x0 (by simp)
    have hx1 : x1 < 256 := hb1 x1 (by simp)
    have hx2 : x2 < 256 := hb1 x2 (by simp)
    have hx3 : x3 < 256 := hb1 x3 (by simp)
    have hy0 : y0 < 256 := hb2 y0 (by simp)
    have hy1 : y1 < 256 := hb2 y1 (by simp)
    have hy2 : y2 < 256 := hb2 y2 (by simp)
    have hy3 : y3 < 256 := hb2 y3 (by simp)
    obtain ⟨e1, e2, e3, e4, e5, e6, e7, e8⟩ := hdata
    have g0 : x0 = y0 := by
      have d1 := hexChar_inj (x0 / 16) (by omega) (y0 / 16) (by omega) e1
      have d2 := hexChar_inj (x0 % 16) (by omega) (y0 % 16) (by omega) e2
      omega
    have g1 : x1 = y1 := by
      have d1 := hexChar_inj (x1 / 16) (by omega) (y1 / 16) (by omega) e3
      have d2 := hexChar_inj (x1 % 16) (by omega) (y1 % 16) (by omega) e4
      omega
    have g2 : x2 = y2 := by
      have d1 := hexChar_inj (x2 / 16) (by omega) (y2 / 16) (by omega) e5
      have d2 := hexChar_inj (x2 % 16) (by omega) (y2 % 16) (by omega) e6
      omega
    have g3 : x3 = y3 := by
      have d1 := hexChar_inj (x3 / 16) (by omega) (y3 / 16) (by omega) e7
      have d2 := hexChar_inj (x3 % 16) (by omega) (y3 % 16) (by omega) e8
      omega
    simp [g0, g1, g2, g3]
  · intro reg id v hnone
    exact ⟨mapGet_mapSet_self reg id v, fun id' h => mapGet_mapSet_ne reg id v id' h⟩

/-! ## C6: checkCommand -/

/-- C6 counterexample: under the spec's literal scenario policy — an object
whose only property is `git` — the engine finds no `bash` rule and allows
`git push` instead of rejecting it. -/
theorem c6_counterexample :
    checkCommand "git" ["push"] policyGitPushDeny = .ok true := by decide

/-- C6 amended: `checkCommand` rejects exactly when the configured rule
resolves to deny or to ask (both reject, carrying the offending command line
and a non-empty reason), and allows when no `bash` rule is configured; the
scenario holds once the policy is written in the engine's configuration
shape: under a `bash` rule mapping the pattern "git push" to deny,
`checkCommand git [push]` rejects and `checkCommand git [status]` allows. -/
theorem c6_check_command_amended :
    (∀ (command : String) (args : List String) (config : PermissionConfig),
      ((∃ e, checkCommand command args config = .error e) ↔
        (getPermissionAction command args config = .deny ∨
         getPermissionAction command args config = .ask)) ∧
      (∀ e, checkCommand command args config = .error e →
        e.command = cmdLine command args ∧ e.reason ≠ "") ∧
      (config.bash = none → checkCommand command args config = .ok true)) ∧
    checkCommand "git" ["push"] policyBashGitPushDeny
      = .error { command := "git push", reason := "Command is denied by configuration" } ∧
    checkCommand "git" ["status"] policyBashGitPushDeny = .ok true := by
  refine ⟨?_, by decide, by decide⟩
  intro command args config
  refine ⟨?_, ?_, ?_⟩
  · cases hact : getPermissionAction command args config with
    | allow => simp [checkCommand, hact]
    | ask => simp [checkCommand, hact]
    | deny => simp [checkCommand, hact]
  · intro e he
    cases hact : getPermissionAction command args config with
    | allow => simp [checkCommand, hact] at he
    | ask =>
      simp [checkCommand, hact] at he
      subst he
      exact ⟨rfl, by simp⟩
    | deny =>
      simp [checkCommand, hact] at he
      subst he
      exact ⟨rfl, by simp⟩
  · intro hb
    simp [checkCommand, getPermissionAction, hb]

/-! ## C7: checkWorkdir -/

/-- C7 (code bug): with canonical root `/a` and canonical workdir `/ab` the
workdir is not inside the root, and with the external-directory action deny
the spec requires a rejection; but `checkWorkdir` tests containment with
`String.prototype.startsWith`, which accepts `/ab` as extending `/a`, so the
check succeeds silently. -/
theorem c7_workdir_prefix_bug :
    insideDir (resolvePath "/" "/ab") (resolvePath "/" "/a") = false ∧
    jsStartsWith (resolvePath "/" "/ab") (resolvePath "/" "/a") = true ∧
    checkWorkdir "/" "/ab" "/a" { bash := none, external_directory := some .deny }
      = .ok { allowed := true, warned := false } := by
  refine ⟨by decide, by decide, by decide⟩

/-! ## C8: read/search pagination -/

/-- C8 counterexample: offsets are plain JS numbers and reach the manager
unvalidated; at offset -1 with limit 1, `read` clamps the offset to 0
(`Math.max(0, offset)`) and returns the first line, while `search` hands the
raw offset to `Array.prototype.slice`, whose negative start counts from the
end.  On a session whose two lines all match the pattern, read selects
["a"] from the 2-element line list while search selects nothing from the
2-element match list: the two paginations differ. -/
theorem c8_counterexample :
    readSelect ["a", "b"] (-1) (some 1) = ["a"] ∧
    searchSelect ["a", "b"] (-1) (some 1) = ([] : List String) ∧
    PTYManager.read "s" (-1) (some 1) [("s", sessionTwoLines)]
      = .ok { lines := ["a"], totalLines := 2, offset := -1, hasMore := true,
              status := .running } ∧
    PTYManager.search "s" (fun _ => true) (-1) (some 1) [("s", sessionTwoLines)]
      = .ok { «matches» := [], totalMatches := 2, totalLines := 2, offset := -1,
              hasMore := true, status := .running } := by
  refine ⟨by decide, by decide, by decide, by decide⟩

/-- C8 amended: for every known session, every nonnegative offset and every
limit, `search` paginates the match list exactly as `read` paginates the
line list (the two selections agree on every list), and both results
satisfy hasMore = offset + returnedCount < total (totalLines for read,
totalMatches for search). -/
theorem c8_pagination_amended (reg : Registry) (id : String) (s : Session)
    (p : String → Bool) (offset : Int) (limit : Option Int)
    (hm : mapGet reg id = some s) (hoff : 0 ≤ offset) :
    (∀ (α : Type) (l : List α), searchSelect l offset limit = readSelect l offset limit) ∧
    PTYManager.read id offset limit reg
      = .ok { lines := readSelect s.buffer.lines offset limit,
              totalLines := s.buffer.lines.length, offset := offset,
              hasMore := decide
                ((offset + ((readSelect s.buffer.lines offset limit).length : Int))
                  < (s.buffer.lines.length : Int)),
              status := s.status } ∧
    PTYManager.search id p offset limit reg
      = .ok { «matches» := readSelect (RingBuffer.search p s.buffer) offset limit,
              totalMatches := (RingBuffer.search p s.buffer).length,
              totalLines := s.buffer.lines.length, offset := offset,
              hasMore := decide
                ((offset + ((readSelect (RingBuffer.search p s.buffer) offset limit).length : Int))
                  < ((RingBuffer.search p s.buffer).length : Int)),
              status := s.status } := by
  have hsel : ∀ (α : Type) (l : List α),
      searchSelect l offset limit = readSelect l offset limit := by
    intro α l
    have hmax : max 0 offset = offset := max_eq_right hoff
    cases limit with
    | some lim => simp [readSelect, searchSelect, hmax]
    | none => simp [readSelect, searchSelect, hmax]
  refine ⟨hsel, ?_, ?_⟩
  · simp [PTYManager.read, hm, RingBuffer.read, RingBuffer.length]
  · have hs := hsel _ (RingBuffer.search p s.buffer)
    simp [PTYManager.search, hm, hs, RingBuffer.length]

/-- Witness for C8 amended at a concrete registry, offset 0 and limit 1. -/
theorem c8_pagination_amended_witness :
    PTYManager.read "s" 0 (some 1) [("s", sessionTwoLines)]
      = .ok { lines := readSelect sessionTwoLines.buffer.lines 0 (some 1),
              totalLines := sessionTwoLines.buffer.lines.length, offset := 0,
              hasMore := decide
                ((0 + ((readSelect sessionTwoLines.buffer.lines 0 (some 1)).length : Int))
                  < (sessionTwoLines.buffer.lines.length : Int)),
              status := sessionTwoLines.status } :=
  (c8_pagination_amended [("s", sessionTwoLines)] "s" sessionTwoLines
    (fun _ => true) 0 (some 1) (by decide) (by decide)).2.1
